import Mathlib

/-!
# Verification of the `btree` package (binary search tree with upsert and traversals)

Shallow embedding of `src/btree.go`. Go's nullable `*Node` pointers are modelled by an
inductive `Node` type with a `nil` constructor; in-place mutation becomes functional
update (each operation returns the updated subtree). Go's `LessFunc` receives two
`*Node` arguments, but per the package's ordering contract it orders nodes by their
payloads (as in the `wordcount` example's `lessFunc`), so we model it as a Boolean
predicate `less : α → α → Bool` on payloads.
-/

namespace BTreeSpec

/-- Go's `*Node`: either the nil pointer or a node with `Payload`, `Left`, `Right`.
(`Node.nil` plays the role of Go's `nil` pointer; `Node.node p l r` is a node whose
`Payload` is `p` and whose `Left`/`Right` pointers are `l`/`r`.) -/
inductive Node (α : Type) : Type where
  | nil : Node α
  | node (payload : α) (left right : Node α) : Node α
deriving DecidableEq

namespace Node

/-- A fresh caller-created node `&Node{Payload: x}`: both children are Go's nil. -/
def fresh {α : Type} (x : α) : Node α :=
  Node.node x Node.nil Node.nil

end Node

variable {α : Type}

/-- `b.upsertFrom(from, n)` from `src/btree.go` lines 47-64, functionally:
returns `(updated from-subtree, intree, inserted)` where `intree` is the subtree rooted
at the returned `*Node` handle. The Go code dereferences `from`, so `from = nil` is
unreachable (the callers guard it); we return a dummy triple there. If `n` were Go's
nil, `b.Less` would receive a nil node; the package only ever passes caller-created
nodes, and we read the comparison through `n`'s payload, so the `n = nil` row is a
dummy as well. -/
def upsertFrom (less : α → α → Bool) : Node α → Node α → Node α × Node α × Bool
  | Node.nil, _ => (Node.nil, Node.nil, false)
  | Node.node p l r, Node.nil => (Node.node p l r, Node.node p l r, false)
  | Node.node p l r, Node.node np nl nr =>
    if less p np then
      -- case b.Less(from, n): descend to from.Left
      match l with
      | Node.nil => (Node.node p (Node.node np nl nr) r, Node.node np nl nr, true)
      | Node.node lp ll lr =>
        let res := upsertFrom less (Node.node lp ll lr) (Node.node np nl nr)
        (Node.node p res.1 r, res.2.1, res.2.2)
    else if less np p then
      -- case b.Less(n, from): descend to from.Right
      match r with
      | Node.nil => (Node.node p l (Node.node np nl nr), Node.node np nl nr, true)
      | Node.node rp rl rr =>
        let res := upsertFrom less (Node.node rp rl rr) (Node.node np nl nr)
        (Node.node p l res.1, res.2.1, res.2.2)
    else
      -- default: equivalent node found, nothing inserted
      (Node.node p l r, Node.node p l r, false)

/-- `b.Upsert(n)` from `src/btree.go` lines 39-45: if the root is nil, `n` becomes the
root and `(root, true)` is returned; otherwise delegate to `upsertFrom`. The first
component is the tree (root) after the call. -/
def Upsert (less : α → α → Bool) (root : Node α) (n : Node α) : Node α × Node α × Bool :=
  match root with
  | Node.nil => (n, n, true)
  | Node.node p l r => upsertFrom less (Node.node p l r) n

/-- `b.depthFirstInOrderFrom(n, walk)` from `src/btree.go` lines 75-83, with the visit
callback reified as the returned list of visited payloads: recurse into `n.Left` when
it is non-nil, visit `n`, recurse into `n.Right` when non-nil. (Recursing into a nil
child would contribute nothing, which is exactly what the nil guard achieves, so the
`nil` row returns `[]`.) -/
def depthFirstInOrderFrom : Node α → List α
  | Node.nil => []
  | Node.node p l r => depthFirstInOrderFrom l ++ p :: depthFirstInOrderFrom r

/-- `b.depthFirstReverseFrom(n, walk)` from `src/btree.go` lines 94-102: visit `n.Right`
using the IN-ORDER recursion, then `n`, then `n.Left` using the IN-ORDER recursion —
the recursion never calls itself, which is the reverse-traversal defect the spec flags. -/
def depthFirstReverseFrom : Node α → List α
  | Node.nil => []
  | Node.node p l r => depthFirstInOrderFrom r ++ p :: depthFirstInOrderFrom l

/-- `b.DepthFirstInOrder(walk)` from `src/btree.go` lines 68-73: no-op on an empty tree. -/
def DepthFirstInOrder (root : Node α) : List α :=
  match root with
  | Node.nil => []
  | Node.node p l r => depthFirstInOrderFrom (Node.node p l r)

/-- `b.DepthFirstReverse(walk)` from `src/btree.go` lines 87-92: no-op on an empty tree. -/
def DepthFirstReverse (root : Node α) : List α :=
  match root with
  | Node.nil => []
  | Node.node p l r => depthFirstReverseFrom (Node.node p l r)

/-- State-passing translation of `depthFirstInOrderFrom`: besides the visit list it
returns the subtree as it stands after the call, reassembled field by field from the
recursive results, so that read-only-ness is a theorem rather than a modelling choice. -/
def depthFirstInOrderFromST : Node α → List α × Node α
  | Node.nil => ([], Node.nil)
  | Node.node p l r =>
    let resL := depthFirstInOrderFromST l
    let resR := depthFirstInOrderFromST r
    (resL.1 ++ p :: resR.1, Node.node p resL.2 resR.2)

/-- State-passing translation of `depthFirstReverseFrom` (children via the in-order
recursion, as in the Go source). -/
def depthFirstReverseFromST : Node α → List α × Node α
  | Node.nil => ([], Node.nil)
  | Node.node p l r =>
    let resR := depthFirstInOrderFromST r
    let resL := depthFirstInOrderFromST l
    (resR.1 ++ p :: resL.1, Node.node p resL.2 resR.2)

/-- State-passing `DepthFirstInOrder`. -/
def DepthFirstInOrderST (root : Node α) : List α × Node α :=
  match root with
  | Node.nil => ([], Node.nil)
  | Node.node p l r => depthFirstInOrderFromST (Node.node p l r)

/-- State-passing `DepthFirstReverse`. -/
def DepthFirstReverseST (root : Node α) : List α × Node α :=
  match root with
  | Node.nil => ([], Node.nil)
  | Node.node p l r => depthFirstReverseFromST (Node.node p l r)

/-- Modelled from the spec: the branch rule of §4.1 in the spec's own words
(`less(cur, n)` true → go to `cur.left`; `less(n, cur)` true → go to `cur.right`;
neither → equivalent, stop, return `(cur, false)`; absent target child slot → place
`n` there and return `(n, true)`), written independently of `upsertFrom` so that C1
can be settled as a refinement between the two. -/
def upsertSpecRule (less : α → α → Bool) : Node α → Node α → Node α × Node α × Bool
  | Node.nil, _ => (Node.nil, Node.nil, false)
  | Node.node p l r, Node.nil => (Node.node p l r, Node.node p l r, false)
  | cur@(Node.node p l r), n@(Node.node np _ _) =>
    if less p np then
      match l with
      | Node.nil => (Node.node p n r, n, true)
      | Node.node lp ll lr =>
        let res := upsertSpecRule less (Node.node lp ll lr) n
        (Node.node p res.1 r, res.2.1, res.2.2)
    else if less np p then
      match r with
      | Node.nil => (Node.node p l n, n, true)
      | Node.node rp rl rr =>
        let res := upsertSpecRule less (Node.node rp rl rr) n
        (Node.node p l res.1, res.2.1, res.2.2)
    else
      (cur, cur, false)

/-- Inserting a list of payloads, each as a fresh caller-created node, left to right. -/
def insertList (less : α → α → Bool) (t : Node α) (xs : List α) : Node α :=
  xs.foldl (fun acc x => (Upsert less acc (Node.fresh x)).1) t

/-- The payloads of a tree, enumerated once per node (pre-order: node, left subtree,
right subtree) — the canonical "one entry per node" enumeration against which both
traversals are measured. -/
def payloads : Node α → List α
  | Node.nil => []
  | Node.node p l r => p :: (payloads l ++ payloads r)

/-- Number of nodes of a tree. -/
def size : Node α → Nat
  | Node.nil => 0
  | Node.node _ l r => size l + size r + 1

/-- The `Left` field of a node (Go would crash dereferencing nil; we return nil there,
and only ever state facts about this accessor on non-nil nodes). -/
def Node.Left : Node α → Node α
  | Node.nil => Node.nil
  | Node.node _ l _ => l

/-- The `Right` field of a node. -/
def Node.Right : Node α → Node α
  | Node.nil => Node.nil
  | Node.node _ _ r => r

/-- The `Payload` field of a node, `none` for Go's nil pointer. -/
def Node.PayloadOpt : Node α → Option α
  | Node.nil => none
  | Node.node p _ _ => some p

/-- The public operations of the package, for the state-machine claim: upserting a
fresh payload-bearing node, and the two traversals. -/
inductive Op (α : Type) where
  | upsert (x : α)
  | inOrder
  | reverse

/-- The tree (root pointer) after one public operation; traversals are run through
their state-passing translations so that their effect on the tree is computed, not
assumed. -/
def applyOp (less : α → α → Bool) (t : Node α) : Op α → Node α
  | Op.upsert x => (Upsert less t (Node.fresh x)).1
  | Op.inOrder => (DepthFirstInOrderST t).2
  | Op.reverse => (DepthFirstReverseST t).2

/-- Numeric strict order on naturals as a Go-style `LessFunc`, used for the
spec's concrete branch-assignment examples. -/
def natLt : Nat → Nat → Bool := fun a b => decide (a < b)

/-- The structural invariant the CODE maintains (branch rule of `upsertFrom`): every
payload in the LEFT subtree of a node `x` is GREATER than `x`'s payload (`less x q`),
and every payload in the RIGHT subtree is LESS (`less q x`). -/
def Inv (less : α → α → Bool) : Node α → Prop
  | Node.nil => True
  | Node.node p l r =>
    (∀ q ∈ payloads l, less p q = true) ∧
    (∀ q ∈ payloads r, less q p = true) ∧
    Inv less l ∧ Inv less r

/-- The invariant as the SPEC's sentence states it (claim C2): every payload in the
LEFT subtree is LESS than the node's payload and every payload in the RIGHT subtree
is GREATER. -/
def specClaimedInv (less : α → α → Bool) : Node α → Prop
  | Node.nil => True
  | Node.node p l r =>
    (∀ q ∈ payloads l, less q p = true) ∧
    (∀ q ∈ payloads r, less p q = true) ∧
    specClaimedInv less l ∧ specClaimedInv less r

def decidableInv (less : α → α → Bool) : (t : Node α) → Decidable (Inv less t)
  | Node.nil => isTrue trivial
  | Node.node p l r =>
    have hl : Decidable (Inv less l) := decidableInv less l
    have hr : Decidable (Inv less r) := decidableInv less r
    show Decidable ((∀ q ∈ payloads l, less p q = true) ∧
      (∀ q ∈ payloads r, less q p = true) ∧ Inv less l ∧ Inv less r) from inferInstance

instance (less : α → α → Bool) (t : Node α) : Decidable (Inv less t) :=
  decidableInv less t

def decidableSpecClaimedInv (less : α → α → Bool) :
    (t : Node α) → Decidable (specClaimedInv less t)
  | Node.nil => isTrue trivial
  | Node.node p l r =>
    have hl : Decidable (specClaimedInv less l) := decidableSpecClaimedInv less l
    have hr : Decidable (specClaimedInv less r) := decidableSpecClaimedInv less r
    show Decidable ((∀ q ∈ payloads l, less q p = true) ∧
      (∀ q ∈ payloads r, less p q = true) ∧
      specClaimedInv less l ∧ specClaimedInv less r) from inferInstance

instance (less : α → α → Bool) (t : Node α) : Decidable (specClaimedInv less t) :=
  decidableSpecClaimedInv less t

/-! ## Helper lemmas -/

/-- `upsertFrom` never replaces the root of the subtree it is called on: the result
is a node with the same payload. -/
theorem upsertFrom_root (less : α → α → Bool) (p : α) (l r n : Node α) :
    ∃ l2 r2, (upsertFrom less (Node.node p l r) n).1 = Node.node p l2 r2 := by
  cases n with
  | nil => exact ⟨l, r, rfl⟩
  | node np nl nr =>
    cases h1 : less p np with
    | true =>
      cases l with
      | nil => exact ⟨Node.node np nl nr, r, by cases r <;> simp [upsertFrom, h1]⟩
      | node lp ll lr =>
        exact ⟨(upsertFrom less (Node.node lp ll lr) (Node.node np nl nr)).1, r,
          by cases r <;> simp [upsertFrom, h1]⟩
    | false =>
      cases h2 : less np p with
      | true =>
        cases r with
        | nil => exact ⟨l, Node.node np nl nr, by cases l <;> simp [upsertFrom, h1, h2]⟩
        | node rp rl rr =>
          exact ⟨l, (upsertFrom less (Node.node rp rl rr) (Node.node np nl nr)).1,
            by cases l <;> simp [upsertFrom, h1, h2]⟩
      | false => exact ⟨l, r, by cases l <;> cases r <;> simp [upsertFrom, h1, h2]⟩

/-- If `upsertFrom` reports `inserted = false`, the subtree is returned unchanged. -/
theorem upsertFrom_not_inserted (less : α → α → Bool) :
    ∀ t n : Node α, (upsertFrom less t n).2.2 = false → (upsertFrom less t n).1 = t := by
  intro t
  induction t with
  | nil => intro n _; rfl
  | node p l r ihl ihr =>
    intro n
    cases n with
    | nil => intro _; rfl
    | node np nl nr =>
      cases h1 : less p np with
      | true =>
        cases l with
        | nil => cases r <;> simp [upsertFrom, h1]
        | node lp ll lr =>
          cases r <;>
            · simp only [upsertFrom, h1, if_true]
              intro h
              rw [ihl _ h]
      | false =>
        cases h2 : less np p with
        | true =>
          cases r with
          | nil => cases l <;> simp [upsertFrom, h1, h2]
          | node rp rl rr =>
            cases l <;>
              · simp only [upsertFrom, h1, h2, if_true, Bool.false_eq_true, if_false]
                intro h
                rw [ihr _ h]
        | false => cases l <;> cases r <;> simp [upsertFrom, h1, h2]

/-- The in-order visit list is a permutation of the canonical node enumeration. -/
theorem inOrder_perm_payloads : ∀ t : Node α, (depthFirstInOrderFrom t).Perm (payloads t) := by
  intro t
  induction t with
  | nil => exact List.Perm.refl _
  | node p l r ihl ihr =>
    simp only [depthFirstInOrderFrom, payloads]
    exact (List.Perm.append ihl (List.Perm.cons p ihr)).trans List.perm_middle

/-- The reverse visit list is also a permutation of the canonical node enumeration. -/
theorem reverse_perm_payloads : ∀ t : Node α, (depthFirstReverseFrom t).Perm (payloads t) := by
  intro t
  cases t with
  | nil => exact List.Perm.refl _
  | node p l r =>
    simp only [depthFirstReverseFrom, payloads]
    exact ((List.Perm.append (inOrder_perm_payloads r)
        (List.Perm.cons p (inOrder_perm_payloads l))).trans
      List.perm_middle).trans (List.Perm.cons p List.perm_append_comm)

/-- Length of the canonical enumeration is the node count. -/
theorem payloads_length : ∀ t : Node α, (payloads t).length = size t := by
  intro t
  induction t with
  | nil => rfl
  | node p l r ihl ihr => simp [payloads, size, ihl, ihr]

/-- `DepthFirstInOrder` agrees with the recursive step on every tree (including the
empty one, where both produce no visits). -/
theorem DepthFirstInOrder_eq : ∀ t : Node α, DepthFirstInOrder t = depthFirstInOrderFrom t := by
  intro t; cases t <;> rfl

theorem DepthFirstReverse_eq : ∀ t : Node α, DepthFirstReverse t = depthFirstReverseFrom t := by
  intro t; cases t <;> rfl

/-- The state-passing in-order traversal returns the visit list and the tree unchanged. -/
theorem inOrderST_eq : ∀ t : Node α, depthFirstInOrderFromST t = (depthFirstInOrderFrom t, t) := by
  intro t
  induction t with
  | nil => rfl
  | node p l r ihl ihr => simp [depthFirstInOrderFromST, depthFirstInOrderFrom, ihl, ihr]

/-- The state-passing reverse traversal returns the visit list and the tree unchanged. -/
theorem reverseST_eq : ∀ t : Node α, depthFirstReverseFromST t = (depthFirstReverseFrom t, t) := by
  intro t
  cases t with
  | nil => rfl
  | node p l r => simp [depthFirstReverseFromST, depthFirstReverseFrom, inOrderST_eq]

/-- One-step behavior of `upsertFrom`: new node goes to the absent left child. -/
theorem upsertFrom_goLeft_new (less : α → α → Bool) (p np : α) (r nl nr : Node α)
    (h1 : less p np = true) :
    upsertFrom less (Node.node p Node.nil r) (Node.node np nl nr) =
      (Node.node p (Node.node np nl nr) r, Node.node np nl nr, true) := by
  cases r <;> simp [upsertFrom, h1]

/-- One-step behavior of `upsertFrom`: descent into the present left child. -/
theorem upsertFrom_goLeft (less : α → α → Bool) (p np lp : α) (ll lr r nl nr : Node α)
    (h1 : less p np = true) :
    upsertFrom less (Node.node p (Node.node lp ll lr) r) (Node.node np nl nr) =
      (Node.node p (upsertFrom less (Node.node lp ll lr) (Node.node np nl nr)).1 r,
       (upsertFrom less (Node.node lp ll lr) (Node.node np nl nr)).2.1,
       (upsertFrom less (Node.node lp ll lr) (Node.node np nl nr)).2.2) := by
  cases r <;> simp [upsertFrom, h1]

/-- One-step behavior of `upsertFrom`: new node goes to the absent right child. -/
theorem upsertFrom_goRight_new (less : α → α → Bool) (p np : α) (l nl nr : Node α)
    (h1 : less p np = false) (h2 : less np p = true) :
    upsertFrom less (Node.node p l Node.nil) (Node.node np nl nr) =
      (Node.node p l (Node.node np nl nr), Node.node np nl nr, true) := by
  cases l <;> simp [upsertFrom, h1, h2]

/-- One-step behavior of `upsertFrom`: descent into the present right child. -/
theorem upsertFrom_goRight (less : α → α → Bool) (p np rp : α) (l rl rr nl nr : Node α)
    (h1 : less p np = false) (h2 : less np p = true) :
    upsertFrom less (Node.node p l (Node.node rp rl rr)) (Node.node np nl nr) =
      (Node.node p l (upsertFrom less (Node.node rp rl rr) (Node.node np nl nr)).1,
       (upsertFrom less (Node.node rp rl rr) (Node.node np nl nr)).2.1,
       (upsertFrom less (Node.node rp rl rr) (Node.node np nl nr)).2.2) := by
  cases l <;> simp [upsertFrom, h1, h2]

/-- One-step behavior of `upsertFrom`: neither comparison holds, the current node is
returned with `inserted = false`. -/
theorem upsertFrom_found (less : α → α → Bool) (p np : α) (l r nl nr : Node α)
    (h1 : less p np = false) (h2 : less np p = false) :
    upsertFrom less (Node.node p l r) (Node.node np nl nr) =
      (Node.node p l r, Node.node p l r, false) := by
  cases l <;> cases r <;> simp [upsertFrom, h1, h2]

/-- When `upsertFrom` actually inserts a fresh node, the payload multiset of the
subtree grows by exactly the new payload. -/
theorem upsertFrom_fresh_perm (less : α → α → Bool) (x : α) :
    ∀ t : Node α,
      (upsertFrom less t (Node.fresh x)).2.2 = true →
      (payloads (upsertFrom less t (Node.fresh x)).1).Perm (x :: payloads t) := by
  intro t
  induction t with
  | nil => intro h; cases h
  | node p l r ihl ihr =>
    cases h1 : less p x with
    | true =>
      cases l with
      | nil =>
        intro _
        rw [Node.fresh, upsertFrom_goLeft_new less p x r Node.nil Node.nil h1]
        exact List.Perm.swap x p _
      | node lp ll lr =>
        intro h
        rw [Node.fresh] at h ⊢
        rw [upsertFrom_goLeft less p x lp ll lr r Node.nil Node.nil h1] at h ⊢
        exact (List.Perm.cons p ((ihl h).append (List.Perm.refl _))).trans
          (List.Perm.swap x p _)
    | false =>
      cases h2 : less x p with
      | true =>
        cases r with
        | nil =>
          intro _
          rw [Node.fresh, upsertFrom_goRight_new less p x l Node.nil Node.nil h1 h2]
          simp only [payloads, List.append_nil, List.nil_append]
          exact (List.Perm.cons p (List.perm_append_singleton x _)).trans
            (List.Perm.swap x p _)
        | node rp rl rr =>
          intro h
          rw [Node.fresh] at h ⊢
          rw [upsertFrom_goRight less p x rp l rl rr Node.nil Node.nil h1 h2] at h ⊢
          exact (List.Perm.cons p
            (((List.Perm.refl _).append (ihr h)).trans List.perm_middle)).trans
            (List.Perm.swap x p _)
      | false =>
        intro h
        rw [Node.fresh] at h
        rw [upsertFrom_found less p x l r Node.nil Node.nil h1 h2] at h
        exact Bool.noConfusion h

/-- Unfolding of the structural invariant at a node. -/
theorem Inv_node (less : α → α → Bool) (p : α) (l r : Node α) :
    Inv less (Node.node p l r) ↔
      ((∀ q ∈ payloads l, less p q = true) ∧ (∀ q ∈ payloads r, less q p = true) ∧
        Inv less l ∧ Inv less r) := Iff.rfl

/-- Top-level `Upsert` of a fresh node: either the payload multiset grows by exactly
the new payload (`inserted = true`) or the tree is returned unchanged. -/
theorem Upsert_fresh_perm (less : α → α → Bool) (x : α) (t : Node α) :
    ((Upsert less t (Node.fresh x)).2.2 = true →
      (payloads (Upsert less t (Node.fresh x)).1).Perm (x :: payloads t)) ∧
    ((Upsert less t (Node.fresh x)).2.2 = false → (Upsert less t (Node.fresh x)).1 = t) := by
  cases t with
  | nil =>
    constructor
    · intro _; exact List.Perm.refl _
    · intro h; cases h
  | node p l r =>
    exact ⟨upsertFrom_fresh_perm less x _, upsertFrom_not_inserted less _ _⟩

/-- Membership in the payload set across one `Upsert` of a fresh node. -/
theorem mem_payloads_Upsert (less : α → α → Bool) (x q : α) (t : Node α) :
    (q ∈ payloads t → q ∈ payloads (Upsert less t (Node.fresh x)).1) ∧
    (q ∈ payloads (Upsert less t (Node.fresh x)).1 → q = x ∨ q ∈ payloads t) := by
  rcases Upsert_fresh_perm less x t with ⟨hperm, heq⟩
  cases hflag : (Upsert less t (Node.fresh x)).2.2 with
  | true =>
    have hp := hperm hflag
    constructor
    · intro hq; exact hp.mem_iff.mpr (List.mem_cons_of_mem x hq)
    · intro hq; exact List.mem_cons.mp (hp.mem_iff.mp hq)
  | false =>
    rw [heq hflag]
    exact ⟨id, fun hq => Or.inr hq⟩

/-- Payloads persist across any later insertions. -/
theorem mem_payloads_insertList (less : α → α → Bool) :
    ∀ (xs : List α) (t : Node α) (q : α),
      q ∈ payloads t → q ∈ payloads (insertList less t xs) := by
  intro xs
  induction xs with
  | nil => intro t q hq; exact hq
  | cons x xs ih =>
    intro t q hq
    exact ih _ _ ((mem_payloads_Upsert less x q t).1 hq)

/-- Every payload of an insertion-built tree was inserted (or was already there). -/
theorem payloads_insertList_subset (less : α → α → Bool) :
    ∀ (xs : List α) (t : Node α) (q : α),
      q ∈ payloads (insertList less t xs) → q ∈ payloads t ∨ q ∈ xs := by
  intro xs
  induction xs with
  | nil => intro t q hq; exact Or.inl hq
  | cons x xs ih =>
    intro t q hq
    rcases ih _ _ hq with h | h
    · rcases (mem_payloads_Upsert less x q t).2 h with h2 | h2
      · exact Or.inr (by rw [h2]; exact List.mem_cons_self x xs)
      · exact Or.inl h2
    · exact Or.inr (List.mem_cons_of_mem x h)

/-- After upserting a fresh payload, the tree holds a payload equivalent to it
(the new payload itself when inserted, the blocking one otherwise). -/
theorem Upsert_finds_equiv (less : α → α → Bool) (hirr : ∀ a, less a a = false) (x : α) :
    ∀ t : Node α, ∃ v ∈ payloads (Upsert less t (Node.fresh x)).1,
      less x v = false ∧ less v x = false := by
  intro t
  induction t with
  | nil => exact ⟨x, List.mem_cons_self x [], hirr x, hirr x⟩
  | node p l r ihl ihr =>
    cases h1 : less p x with
    | true =>
      cases l with
      | nil =>
        refine ⟨x, ?_, hirr x, hirr x⟩
        simp only [Upsert]
        rw [Node.fresh, upsertFrom_goLeft_new less p x r Node.nil Node.nil h1]
        simp [payloads]
      | node lp ll lr =>
        obtain ⟨v, hv, h3, h4⟩ := ihl
        refine ⟨v, ?_, h3, h4⟩
        simp only [Upsert]
        rw [Node.fresh, upsertFrom_goLeft less p x lp ll lr r Node.nil Node.nil h1]
        exact List.mem_cons_of_mem p (List.mem_append_left _ hv)
    | false =>
      cases h2 : less x p with
      | true =>
        cases r with
        | nil =>
          refine ⟨x, ?_, hirr x, hirr x⟩
          simp only [Upsert]
          rw [Node.fresh, upsertFrom_goRight_new less p x l Node.nil Node.nil h1 h2]
          simp [payloads]
        | node rp rl rr =>
          obtain ⟨v, hv, h3, h4⟩ := ihr
          refine ⟨v, ?_, h3, h4⟩
          simp only [Upsert]
          rw [Node.fresh, upsertFrom_goRight less p x rp l rl rr Node.nil Node.nil h1 h2]
          exact List.mem_cons_of_mem p (List.mem_append_right _ hv)
      | false =>
        refine ⟨p, ?_, h2, h1⟩
        simp only [Upsert]
        rw [Node.fresh, upsertFrom_found less p x l r Node.nil Node.nil h1 h2]
        exact List.mem_cons_self p _

/-- Upserting a fresh node preserves the structural invariant of the code. -/
theorem Inv_Upsert (less : α → α → Bool) (x : α) :
    ∀ t : Node α, Inv less t → Inv less (Upsert less t (Node.fresh x)).1 := by
  intro t
  induction t with
  | nil =>
    intro _
    refine (Inv_node less x Node.nil Node.nil).mpr ?_
    simp [payloads, Inv]
  | node p l r ihl ihr =>
    intro hInv
    obtain ⟨hL, hR, hIl, hIr⟩ := (Inv_node less p l r).mp hInv
    cases h1 : less p x with
    | true =>
      cases l with
      | nil =>
        simp only [Upsert]
        rw [Node.fresh, upsertFrom_goLeft_new less p x r Node.nil Node.nil h1]
        refine (Inv_node less p _ r).mpr ⟨?_, hR, ?_, hIr⟩
        · intro q hq
          have hqx : q = x := by simpa [payloads] using hq
          rw [hqx]; exact h1
        · exact (Inv_node less x Node.nil Node.nil).mpr (by simp [payloads, Inv])
      | node lp ll lr =>
        simp only [Upsert]
        rw [Node.fresh, upsertFrom_goLeft less p x lp ll lr r Node.nil Node.nil h1]
        refine (Inv_node less p _ r).mpr ⟨?_, hR, ?_, hIr⟩
        · intro q hq
          rcases (mem_payloads_Upsert less x q (Node.node lp ll lr)).2 hq with h2 | h2
          · rw [h2]; exact h1
          · exact hL q h2
        · exact ihl hIl
    | false =>
      cases h2 : less x p with
      | true =>
        cases r with
        | nil =>
          simp only [Upsert]
          rw [Node.fresh, upsertFrom_goRight_new less p x l Node.nil Node.nil h1 h2]
          refine (Inv_node less p l _).mpr ⟨hL, ?_, hIl, ?_⟩
          · intro q hq
            have hqx : q = x := by simpa [payloads] using hq
            rw [hqx]; exact h2
          · exact (Inv_node less x Node.nil Node.nil).mpr (by simp [payloads, Inv])
        | node rp rl rr =>
          simp only [Upsert]
          rw [Node.fresh, upsertFrom_goRight less p x rp l rl rr Node.nil Node.nil h1 h2]
          refine (Inv_node less p l _).mpr ⟨hL, ?_, hIl, ?_⟩
          · intro q hq
            rcases (mem_payloads_Upsert less x q (Node.node rp rl rr)).2 hq with h3 | h3
            · rw [h3]; exact h2
            · exact hR q h3
          · exact ihr hIr
      | false =>
        simp only [Upsert]
        rw [Node.fresh, upsertFrom_found less p x l r Node.nil Node.nil h1 h2]
        exact (Inv_node less p l r).mpr ⟨hL, hR, hIl, hIr⟩

/-- Building a tree by upserting fresh nodes preserves the invariant. -/
theorem Inv_insertList (less : α → α → Bool) :
    ∀ (xs : List α) (t : Node α), Inv less t → Inv less (insertList less t xs) := by
  intro xs
  induction xs with
  | nil => intro t h; exact h
  | cons x xs ih => intro t h; exact ih _ (Inv_Upsert less x t h)

/-- Under a transitive ordering, the invariant forces the in-order visit list to be
strictly descending (each earlier visited payload is greater than each later one). -/
theorem Inv_pairwise_desc (less : α → α → Bool)
    (htr : ∀ a b c, less a b = true → less b c = true → less a c = true) :
    ∀ t : Node α, Inv less t →
      List.Pairwise (fun a b => less b a = true) (depthFirstInOrderFrom t) := by
  intro t
  induction t with
  | nil => exact fun _ => List.Pairwise.nil
  | node p l r ihl ihr =>
    intro hInv
    obtain ⟨hL, hR, hIl, hIr⟩ := (Inv_node less p l r).mp hInv
    show List.Pairwise _ (depthFirstInOrderFrom l ++ p :: depthFirstInOrderFrom r)
    refine List.pairwise_append.mpr ⟨ihl hIl, ?_, ?_⟩
    · refine List.pairwise_cons.mpr ⟨?_, ihr hIr⟩
      intro b hb
      exact hR b ((inOrder_perm_payloads r).subset hb)
    · intro a ha b hb
      have haP : a ∈ payloads l := (inOrder_perm_payloads l).subset ha
      rcases List.mem_cons.mp hb with hbp | hb2
      · rw [hbp]; exact hL a haP
      · have hbP : b ∈ payloads r := (inOrder_perm_payloads r).subset hb2
        exact htr b p a (hR b hbP) (hL a haP)

/-- Under a transitive ordering, the invariant makes all payloads pairwise comparable:
no two nodes hold equivalent payloads. -/
theorem Inv_pairwise_comparable (less : α → α → Bool)
    (htr : ∀ a b c, less a b = true → less b c = true → less a c = true)
    (t : Node α) (hInv : Inv less t) :
    List.Pairwise (fun a b => less a b = true ∨ less b a = true) (payloads t) := by
  have hdesc := Inv_pairwise_desc less htr t hInv
  exact ((inOrder_perm_payloads t).pairwise_iff (fun {x y} h => h.symm)).mp
    (hdesc.imp (fun h => Or.inr h))

/-- Top-level state-passing traversals return the visit list and the unchanged tree. -/
theorem DepthFirstInOrderST_eq (t : Node α) :
    DepthFirstInOrderST t = (DepthFirstInOrder t, t) := by
  cases t with
  | nil => rfl
  | node p l r =>
    show depthFirstInOrderFromST (Node.node p l r) = _
    rw [inOrderST_eq, DepthFirstInOrder_eq]

theorem DepthFirstReverseST_eq (t : Node α) :
    DepthFirstReverseST t = (DepthFirstReverse t, t) := by
  cases t with
  | nil => rfl
  | node p l r =>
    show depthFirstReverseFromST (Node.node p l r) = _
    rw [reverseST_eq, DepthFirstReverse_eq]

/-- Upserting a fresh node never leaves the tree empty. -/
theorem Upsert_ne_nil (less : α → α → Bool) (t : Node α) (x : α) :
    (Upsert less t (Node.fresh x)).1 ≠ Node.nil := by
  cases t with
  | nil => exact fun h => Node.noConfusion h
  | node p l r =>
    obtain ⟨l2, r2, h⟩ := upsertFrom_root less p l r (Node.fresh x)
    show (upsertFrom less (Node.node p l r) (Node.fresh x)).1 ≠ Node.nil
    rw [h]
    exact fun hc => Node.noConfusion hc

/-- No public operation empties a populated tree. -/
theorem applyOp_ne_nil (less : α → α → Bool) (t : Node α) (op : Op α) (ht : t ≠ Node.nil) :
    applyOp less t op ≠ Node.nil := by
  cases op with
  | upsert x => exact Upsert_ne_nil less t x
  | inOrder =>
    show (DepthFirstInOrderST t).2 ≠ Node.nil
    rw [DepthFirstInOrderST_eq]
    exact ht
  | reverse =>
    show (DepthFirstReverseST t).2 ≠ Node.nil
    rw [DepthFirstReverseST_eq]
    exact ht

/-- Under a strict weak ordering (transitive, incomparability-transitive), two
equivalent payloads compare identically against every third payload. -/
theorem equiv_compat (less : α → α → Bool)
    (htr : ∀ a b c, less a b = true → less b c = true → less a c = true)
    (hinc : ∀ a b c, less a b = false → less b a = false →
      less b c = false → less c b = false → less a c = false ∧ less c a = false)
    (x y : α) (hxy : less x y = false) (hyx : less y x = false) (c : α) :
    less c x = less c y ∧ less x c = less y c := by
  constructor
  · cases hcx : less c x with
    | true =>
      cases hcy : less c y with
      | true => rfl
      | false =>
        exfalso
        have hyc : less y c = false := by
          cases hyc2 : less y c with
          | false => rfl
          | true =>
            have h3 := htr y c x hyc2 hcx
            rw [h3] at hyx; exact Bool.noConfusion hyx
        have h4 := (hinc x y c hxy hyx hyc hcy).2
        rw [h4] at hcx; exact Bool.noConfusion hcx
    | false =>
      cases hcy : less c y with
      | false => rfl
      | true =>
        exfalso
        have hxc : less x c = false := by
          cases hxc2 : less x c with
          | false => rfl
          | true =>
            have h3 := htr x c y hxc2 hcy
            rw [h3] at hxy; exact Bool.noConfusion hxy
        have h4 := (hinc y x c hyx hxy hxc hcx).2
        rw [h4] at hcy; exact Bool.noConfusion hcy
  · cases hxc : less x c with
    | true =>
      cases hyc : less y c with
      | true => rfl
      | false =>
        exfalso
        have hcy : less c y = false := by
          cases hcy2 : less c y with
          | false => rfl
          | true =>
            have h3 := htr x c y hxc hcy2
            rw [h3] at hxy; exact Bool.noConfusion hxy
        have h4 := (hinc x y c hxy hyx hyc hcy).1
        rw [h4] at hxc; exact Bool.noConfusion hxc
    | false =>
      cases hyc : less y c with
      | false => rfl
      | true =>
        exfalso
        have hcx : less c x = false := by
          cases hcx2 : less c x with
          | false => rfl
          | true =>
            have h3 := htr y c x hyc hcx2
            rw [h3] at hyx; exact Bool.noConfusion hyx
        have h4 := (hinc y x c hyx hxy hxc hcx).1
        rw [h4] at hyc; exact Bool.noConfusion hyc

/-- Upserting a payload equivalent to one just upserted changes nothing: it descends
along the same comparisons, reaches the node the first call placed or found, and
returns that same handle with `inserted = false`. -/
theorem upsertFrom_equiv_again (less : α → α → Bool)
    (htr : ∀ a b c, less a b = true → less b c = true → less a c = true)
    (hinc : ∀ a b c, less a b = false → less b a = false →
      less b c = false → less c b = false → less a c = false ∧ less c a = false)
    (x y : α) (hxy : less x y = false) (hyx : less y x = false) :
    ∀ t : Node α, t ≠ Node.nil →
      upsertFrom less ((upsertFrom less t (Node.fresh x)).1) (Node.fresh y) =
        ((upsertFrom less t (Node.fresh x)).1,
         (upsertFrom less t (Node.fresh x)).2.1, false) := by
  intro t
  induction t with
  | nil => intro h; exact absurd rfl h
  | node p l r ihl ihr =>
    intro _
    simp only [Node.fresh] at ihl ihr ⊢
    have hcomp := equiv_compat less htr hinc x y hxy hyx p
    cases h1 : less p x with
    | true =>
      have h1y : less p y = true := by rw [← hcomp.1]; exact h1
      cases l with
      | nil =>
        rw [upsertFrom_goLeft_new less p x r Node.nil Node.nil h1]
        show upsertFrom less (Node.node p (Node.node x Node.nil Node.nil) r)
            (Node.node y Node.nil Node.nil) =
          (Node.node p (Node.node x Node.nil Node.nil) r, Node.node x Node.nil Node.nil, false)
        rw [upsertFrom_goLeft less p y x Node.nil Node.nil r Node.nil Node.nil h1y,
          upsertFrom_found less x y Node.nil Node.nil Node.nil Node.nil hxy hyx]
      | node lp ll lr =>
        rw [upsertFrom_goLeft less p x lp ll lr r Node.nil Node.nil h1]
        show upsertFrom less
            (Node.node p
              (upsertFrom less (Node.node lp ll lr) (Node.node x Node.nil Node.nil)).1 r)
            (Node.node y Node.nil Node.nil) =
          (Node.node p
            (upsertFrom less (Node.node lp ll lr) (Node.node x Node.nil Node.nil)).1 r,
           (upsertFrom less (Node.node lp ll lr) (Node.node x Node.nil Node.nil)).2.1, false)
        obtain ⟨a, b, hsh⟩ := upsertFrom_root less lp ll lr (Node.node x Node.nil Node.nil)
        have hstep := ihl (fun hc => Node.noConfusion hc)
        rw [hsh] at hstep ⊢
        rw [upsertFrom_goLeft less p y lp a b r Node.nil Node.nil h1y, hstep]
    | false =>
      have h1y : less p y = false := by rw [← hcomp.1]; exact h1
      cases h2 : less x p with
      | true =>
        have h2y : less y p = true := by rw [← hcomp.2]; exact h2
        cases r with
        | nil =>
          rw [upsertFrom_goRight_new less p x l Node.nil Node.nil h1 h2]
          show upsertFrom less (Node.node p l (Node.node x Node.nil Node.nil))
              (Node.node y Node.nil Node.nil) =
            (Node.node p l (Node.node x Node.nil Node.nil), Node.node x Node.nil Node.nil, false)
          rw [upsertFrom_goRight less p y x l Node.nil Node.nil Node.nil Node.nil h1y h2y,
            upsertFrom_found less x y Node.nil Node.nil Node.nil Node.nil hxy hyx]
        | node rp rl rr =>
          rw [upsertFrom_goRight less p x rp l rl rr Node.nil Node.nil h1 h2]
          show upsertFrom less
              (Node.node p l
                (upsertFrom less (Node.node rp rl rr) (Node.node x Node.nil Node.nil)).1)
              (Node.node y Node.nil Node.nil) =
            (Node.node p l
              (upsertFrom less (Node.node rp rl rr) (Node.node x Node.nil Node.nil)).1,
             (upsertFrom less (Node.node rp rl rr) (Node.node x Node.nil Node.nil)).2.1, false)
          obtain ⟨a, b, hsh⟩ := upsertFrom_root less rp rl rr (Node.node x Node.nil Node.nil)
          have hstep := ihr (fun hc => Node.noConfusion hc)
          rw [hsh] at hstep ⊢
          rw [upsertFrom_goRight less p y rp l a b Node.nil Node.nil h1y h2y, hstep]
      | false =>
        have h2y : less y p = false := by rw [← hcomp.2]; exact h2
        rw [upsertFrom_found less p x l r Node.nil Node.nil h1 h2]
        show upsertFrom less (Node.node p l r) (Node.node y Node.nil Node.nil) =
          (Node.node p l r, Node.node p l r, false)
        rw [upsertFrom_found less p y l r Node.nil Node.nil h1y h2y]

/-- `Upsert`-level version of `upsertFrom_equiv_again`, covering the empty tree. -/
theorem Upsert_equiv_again (less : α → α → Bool)
    (htr : ∀ a b c, less a b = true → less b c = true → less a c = true)
    (hinc : ∀ a b c, less a b = false → less b a = false →
      less b c = false → less c b = false → less a c = false ∧ less c a = false)
    (x y : α) (hxy : less x y = false) (hyx : less y x = false) (t : Node α) :
    Upsert less ((Upsert less t (Node.fresh x)).1) (Node.fresh y) =
      ((Upsert less t (Node.fresh x)).1, (Upsert less t (Node.fresh x)).2.1, false) := by
  cases t with
  | nil =>
    show upsertFrom less (Node.node x Node.nil Node.nil) (Node.node y Node.nil Node.nil) =
      (Node.node x Node.nil Node.nil, Node.node x Node.nil Node.nil, false)
    rw [upsertFrom_found less x y Node.nil Node.nil Node.nil Node.nil hxy hyx]
  | node p l r =>
    obtain ⟨l2, r2, hsh⟩ := upsertFrom_root less p l r (Node.fresh x)
    have key := upsertFrom_equiv_again less htr hinc x y hxy hyx (Node.node p l r)
      (fun hc => Node.noConfusion hc)
    show Upsert less ((upsertFrom less (Node.node p l r) (Node.fresh x)).1) (Node.fresh y) =
      ((upsertFrom less (Node.node p l r) (Node.fresh x)).1,
       (upsertFrom less (Node.node p l r) (Node.fresh x)).2.1, false)
    rw [hsh]
    show upsertFrom less (Node.node p l2 r2) (Node.fresh y) =
      (Node.node p l2 r2, (upsertFrom less (Node.node p l r) (Node.fresh x)).2.1, false)
    rw [← hsh]
    exact key

/-- The code's `upsertFrom` computes exactly the spec's branch rule. -/
theorem upsertFrom_eq_specRule (less : α → α → Bool) :
    ∀ t n : Node α, upsertFrom less t n = upsertSpecRule less t n := by
  intro t
  induction t with
  | nil => intro n; rfl
  | node p l r ihl ihr =>
    intro n
    cases n with
    | nil => rfl
    | node np nl nr =>
      cases h1 : less p np with
      | true =>
        cases l with
        | nil => cases r <;> simp [upsertFrom, upsertSpecRule, h1]
        | node lp ll lr => cases r <;> simp [upsertFrom, upsertSpecRule, h1, ihl]
      | false =>
        cases h2 : less np p with
        | true =>
          cases r with
          | nil => cases l <;> simp [upsertFrom, upsertSpecRule, h1, h2]
          | node rp rl rr => cases l <;> simp [upsertFrom, upsertSpecRule, h1, h2, ihr]
        | false => cases l <;> cases r <;> simp [upsertFrom, upsertSpecRule, h1, h2]

/-- In a tree built by upserting fresh payloads, every inserted payload has an
equivalent representative among the tree's payloads. -/
theorem insertList_finds_equiv (less : α → α → Bool) (hirr : ∀ a, less a a = false) :
    ∀ (xs : List α) (t : Node α) (x : α), x ∈ xs →
      ∃ v ∈ payloads (insertList less t xs), less x v = false ∧ less v x = false := by
  intro xs
  induction xs with
  | nil => intro t x hx; cases hx
  | cons z zs ih =>
    intro t x hx
    rcases List.mem_cons.mp hx with hxz | hx2
    · obtain ⟨v, hv, h3, h4⟩ := Upsert_finds_equiv less hirr z t
      exact ⟨v, mem_payloads_insertList less zs _ v hv, by rw [hxz]; exact h3,
        by rw [hxz]; exact h4⟩
    · exact ih _ _ hx2

/-- Populated trees stay populated under any sequence of public operations. -/
theorem foldl_applyOp_ne_nil (less : α → α → Bool) :
    ∀ (ops : List (Op α)) (t : Node α), t ≠ Node.nil →
      List.foldl (applyOp less) t ops ≠ Node.nil := by
  intro ops
  induction ops with
  | nil => intro t ht; exact ht
  | cons op ops ih => intro t ht; exact ih _ (applyOp_ne_nil less t op ht)

/-! ## Claim theorems -/

/-- C1: for every non-empty tree and every new node `n`, `Upsert`'s recursive worker
descends exactly by the spec's branch rule: `less(cur, n)` true → `cur.Left`;
`less(n, cur)` true → `cur.Right`; neither → stop and return `(cur, false)` without
inserting; absent target child slot → place `n` there and return `(n, true)`. The
rule, written as the function `upsertSpecRule` in the spec's own words, computes the
same result as the code's `upsertFrom` on every input. -/
theorem claim_C1 (less : α → α → Bool) (p : α) (l r n : Node α) :
    upsertFrom less (Node.node p l r) n = upsertSpecRule less (Node.node p l r) n :=
  upsertFrom_eq_specRule less (Node.node p l r) n

/-- C2 counterexample: with the consistent, irreflexive numeric `less`, upserting
5 then 8 produces a tree violating the claimed invariant (left subtree less,
right subtree greater): 8 is stored in 5's LEFT subtree. -/
theorem claim_C2_counterexample :
    (∀ a : Nat, natLt a a = false) ∧
      ¬ specClaimedInv natLt (insertList natLt Node.nil [5, 8]) :=
  ⟨fun a => by simp [natLt], by decide⟩

/-- C2 (amended): for every tree built by upserting fresh payloads with a consistent,
irreflexive and transitive `less`, every node's LEFT subtree holds only payloads
GREATER than the node's payload, its RIGHT subtree only payloads LESS than it, and no
two nodes hold equivalent payloads (all payloads are pairwise comparable). -/
theorem claim_C2 (less : α → α → Bool)
    (hirr : ∀ a, less a a = false)
    (htr : ∀ a b c, less a b = true → less b c = true → less a c = true)
    (xs : List α) :
    Inv less (insertList less Node.nil xs) ∧
      List.Pairwise (fun a b => less a b = true ∨ less b a = true)
        (payloads (insertList less Node.nil xs)) := by
  have hInv := Inv_insertList less xs Node.nil trivial
  exact ⟨hInv, Inv_pairwise_comparable less htr _ hInv⟩

/-- Witness for C2: the hypotheses hold for numeric `less` and the conclusion holds
for the inserted payloads 5, 3, 8. -/
theorem claim_C2_witness :
    (∀ a : Nat, natLt a a = false) ∧
    (∀ a b c : Nat, natLt a b = true → natLt b c = true → natLt a c = true) ∧
    (Inv natLt (insertList natLt Node.nil [5, 3, 8]) ∧
      List.Pairwise (fun a b => natLt a b = true ∨ natLt b a = true)
        (payloads (insertList natLt Node.nil [5, 3, 8]))) :=
  ⟨fun a => by simp [natLt],
   fun a b c h1 h2 => by simp only [natLt, decide_eq_true_eq] at *; omega,
   claim_C2 natLt (fun a => by simp [natLt])
     (fun a b c h1 h2 => by simp only [natLt, decide_eq_true_eq] at *; omega) [5, 3, 8]⟩

/-- C3 counterexample: inserting 5, 3, 8 with numeric `less` does NOT attach 3 as the
left child and 8 as the right child of the root. -/
theorem claim_C3_counterexample :
    ¬ (Node.PayloadOpt (Node.Left (insertList natLt Node.nil [5, 3, 8])) = some 3 ∧
       Node.PayloadOpt (Node.Right (insertList natLt Node.nil [5, 3, 8])) = some 8) := by
  decide

/-- C3 (amended): inserting payloads 5, 3, 8 in that order with numeric `less`
produces a root holding 5 with 8 attached as the LEFT child and 3 attached as the
RIGHT child (the code places greater payloads on the left). -/
theorem claim_C3 :
    Node.PayloadOpt (insertList natLt Node.nil [5, 3, 8]) = some 5 ∧
    Node.Left (insertList natLt Node.nil [5, 3, 8]) = Node.node 8 Node.nil Node.nil ∧
    Node.Right (insertList natLt Node.nil [5, 3, 8]) = Node.node 3 Node.nil Node.nil := by
  decide

/-- C4: on every non-empty tree, the reverse traversal swaps left/right only at the
root — it visits the root's right subtree with the IN-ORDER recursive step, then the
root, then the left subtree with the IN-ORDER step — and it still visits every node
exactly once (its visit list is a permutation of the canonical per-node enumeration). -/
theorem claim_C4 (p : α) (l r : Node α) :
    DepthFirstReverse (Node.node p l r) =
      depthFirstInOrderFrom r ++ p :: depthFirstInOrderFrom l ∧
    (DepthFirstReverse (Node.node p l r)).Perm (payloads (Node.node p l r)) := by
  constructor
  · rfl
  · rw [DepthFirstReverse_eq]
    exact reverse_perm_payloads _

/-- C5: in-order traversal visits left subtree, then node, then right subtree, and on
every tree built by upserting fresh payloads under a transitive strict ordering the
visited payload sequence is strictly DESCENDING with respect to `less`. -/
theorem claim_C5 (less : α → α → Bool)
    (htr : ∀ a b c, less a b = true → less b c = true → less a c = true)
    (xs : List α) :
    (∀ (p : α) (l r : Node α), depthFirstInOrderFrom (Node.node p l r) =
      depthFirstInOrderFrom l ++ p :: depthFirstInOrderFrom r) ∧
    List.Pairwise (fun a b => less b a = true)
      (DepthFirstInOrder (insertList less Node.nil xs)) := by
  constructor
  · intro p l r; rfl
  · rw [DepthFirstInOrder_eq]
    exact Inv_pairwise_desc less htr _ (Inv_insertList less xs Node.nil trivial)

/-- Witness for C5: numeric `less` is transitive, and the payloads 5, 3, 8 are
visited in descending order. -/
theorem claim_C5_witness :
    (∀ a b c : Nat, natLt a b = true → natLt b c = true → natLt a c = true) ∧
    ((∀ (p : Nat) (l r : Node Nat), depthFirstInOrderFrom (Node.node p l r) =
        depthFirstInOrderFrom l ++ p :: depthFirstInOrderFrom r) ∧
      List.Pairwise (fun a b => natLt b a = true)
        (DepthFirstInOrder (insertList natLt Node.nil [5, 3, 8]))) :=
  ⟨fun a b c h1 h2 => by simp only [natLt, decide_eq_true_eq] at *; omega,
   claim_C5 natLt
     (fun a b c h1 h2 => by simp only [natLt, decide_eq_true_eq] at *; omega) [5, 3, 8]⟩

/-- C6: after upserting any sequence of fresh payloads under a strict ordering, both
traversals visit the same multiset of payloads, exactly once per node; every inserted
payload is represented by exactly one visited equivalent payload, every visited
payload was inserted, and no two visited payloads are equivalent. -/
theorem claim_C6 (less : α → α → Bool)
    (hirr : ∀ a, less a a = false)
    (htr : ∀ a b c, less a b = true → less b c = true → less a c = true)
    (xs : List α) :
    (DepthFirstReverse (insertList less Node.nil xs)).Perm
      (DepthFirstInOrder (insertList less Node.nil xs)) ∧
    (DepthFirstInOrder (insertList less Node.nil xs)).length =
      size (insertList less Node.nil xs) ∧
    (∀ x ∈ xs, ∃ v ∈ DepthFirstInOrder (insertList less Node.nil xs),
      less x v = false ∧ less v x = false) ∧
    (∀ x ∈ xs, ∃ v ∈ DepthFirstReverse (insertList less Node.nil xs),
      less x v = false ∧ less v x = false) ∧
    (∀ v ∈ DepthFirstInOrder (insertList less Node.nil xs), v ∈ xs) ∧
    List.Pairwise (fun a b => less a b = true ∨ less b a = true)
      (DepthFirstInOrder (insertList less Node.nil xs)) := by
  rw [DepthFirstInOrder_eq, DepthFirstReverse_eq]
  refine ⟨?_, ?_, ?_, ?_, ?_, ?_⟩
  · exact (reverse_perm_payloads _).trans (inOrder_perm_payloads _).symm
  · rw [(inOrder_perm_payloads _).length_eq]
    exact payloads_length _
  · intro x hx
    obtain ⟨v, hv, h3, h4⟩ := insertList_finds_equiv less hirr xs Node.nil x hx
    exact ⟨v, (inOrder_perm_payloads _).mem_iff.mpr hv, h3, h4⟩
  · intro x hx
    obtain ⟨v, hv, h3, h4⟩ := insertList_finds_equiv less hirr xs Node.nil x hx
    exact ⟨v, (reverse_perm_payloads _).mem_iff.mpr hv, h3, h4⟩
  · intro v hv
    rcases payloads_insertList_subset less xs Node.nil v
        ((inOrder_perm_payloads _).subset hv) with h | h
    · cases h
    · exact h
  · exact (Inv_pairwise_desc less htr _ (Inv_insertList less xs Node.nil trivial)).imp
      (fun h => Or.inr h)

/-- Witness for C6 at numeric `less` with inserted payloads 5, 3, 8, 5 (one
duplicate, collapsed). -/
theorem claim_C6_witness :
    (∀ a : Nat, natLt a a = false) ∧
    (∀ a b c : Nat, natLt a b = true → natLt b c = true → natLt a c = true) ∧
    ((DepthFirstReverse (insertList natLt Node.nil [5, 3, 8, 5])).Perm
        (DepthFirstInOrder (insertList natLt Node.nil [5, 3, 8, 5])) ∧
      (DepthFirstInOrder (insertList natLt Node.nil [5, 3, 8, 5])).length =
        size (insertList natLt Node.nil [5, 3, 8, 5]) ∧
      (∀ x ∈ [5, 3, 8, 5], ∃ v ∈ DepthFirstInOrder (insertList natLt Node.nil [5, 3, 8, 5]),
        natLt x v = false ∧ natLt v x = false) ∧
      (∀ x ∈ [5, 3, 8, 5], ∃ v ∈ DepthFirstReverse (insertList natLt Node.nil [5, 3, 8, 5]),
        natLt x v = false ∧ natLt v x = false) ∧
      (∀ v ∈ DepthFirstInOrder (insertList natLt Node.nil [5, 3, 8, 5]), v ∈ [5, 3, 8, 5]) ∧
      List.Pairwise (fun a b => natLt a b = true ∨ natLt b a = true)
        (DepthFirstInOrder (insertList natLt Node.nil [5, 3, 8, 5]))) :=
  ⟨fun a => by simp [natLt],
   fun a b c h1 h2 => by simp only [natLt, decide_eq_true_eq] at *; omega,
   claim_C6 natLt (fun a => by simp [natLt])
     (fun a b c h1 h2 => by simp only [natLt, decide_eq_true_eq] at *; omega) [5, 3, 8, 5]⟩

/-- C7: upsert is idempotent under equivalence. Under a strict weak ordering
(transitive and incomparability-transitive), after upserting payload `x`, upserting
any equivalent payload `y` returns `inserted = false`, leaves the tree unchanged, and
returns exactly the handle the first call returned (the first node, not the second). -/
theorem claim_C7 (less : α → α → Bool)
    (htr : ∀ a b c, less a b = true → less b c = true → less a c = true)
    (hinc : ∀ a b c, less a b = false → less b a = false →
      less b c = false → less c b = false → less a c = false ∧ less c a = false)
    (x y : α) (hxy : less x y = false) (hyx : less y x = false) (t : Node α) :
    Upsert less ((Upsert less t (Node.fresh x)).1) (Node.fresh y) =
      ((Upsert less t (Node.fresh x)).1, (Upsert less t (Node.fresh x)).2.1, false) :=
  Upsert_equiv_again less htr hinc x y hxy hyx t

/-- Witness for C7: numeric `less`, equivalent payloads 5 and 5, tree seeded with 3. -/
theorem claim_C7_witness :
    (∀ a b c : Nat, natLt a b = true → natLt b c = true → natLt a c = true) ∧
    (∀ a b c : Nat, natLt a b = false → natLt b a = false →
      natLt b c = false → natLt c b = false → natLt a c = false ∧ natLt c a = false) ∧
    natLt 5 5 = false ∧
    Upsert natLt ((Upsert natLt (Node.fresh 3) (Node.fresh 5)).1) (Node.fresh 5) =
      ((Upsert natLt (Node.fresh 3) (Node.fresh 5)).1,
       (Upsert natLt (Node.fresh 3) (Node.fresh 5)).2.1, false) :=
  ⟨fun a b c h1 h2 => by simp only [natLt, decide_eq_true_eq] at *; omega,
   fun a b c h1 h2 h3 h4 => by
     simp only [natLt, decide_eq_false_iff_not] at *
     constructor <;> omega,
   by decide,
   claim_C7 natLt
     (fun a b c h1 h2 => by simp only [natLt, decide_eq_true_eq] at *; omega)
     (fun a b c h1 h2 h3 h4 => by
       simp only [natLt, decide_eq_false_iff_not] at *
       constructor <;> omega)
     5 5 (by decide) (by decide) (Node.fresh 3)⟩

/-- C8: if `Upsert` reports `inserted = false`, the tree is returned exactly as it
was — root and every node's fields unchanged. -/
theorem claim_C8 (less : α → α → Bool) (t n : Node α)
    (h : (Upsert less t n).2.2 = false) : (Upsert less t n).1 = t := by
  cases t with
  | nil => exact Bool.noConfusion h
  | node p l r => exact upsertFrom_not_inserted less _ n h

/-- Witness for C8: upserting 5 into a tree already holding 5 reports no insertion
and leaves the tree unchanged. -/
theorem claim_C8_witness :
    (Upsert natLt (Node.fresh 5) (Node.fresh 5)).2.2 = false ∧
    (Upsert natLt (Node.fresh 5) (Node.fresh 5)).1 = Node.fresh 5 :=
  ⟨by decide, claim_C8 natLt (Node.fresh 5) (Node.fresh 5) (by decide)⟩

/-- C9: the tree has exactly the two externally visible states Empty (nil root) and
Populated (non-nil root): upserting into an empty tree populates it and reports
`inserted = true`, traversals leave an empty tree empty, and no sequence of public
operations ever empties a populated tree. -/
theorem claim_C9 (less : α → α → Bool) (t : Node α) (ops : List (Op α))
    (ht : t ≠ Node.nil) :
    (∀ x : α, (Upsert less Node.nil (Node.fresh x)).1 ≠ Node.nil ∧
      (Upsert less Node.nil (Node.fresh x)).2.2 = true) ∧
    applyOp less Node.nil Op.inOrder = Node.nil ∧
    applyOp less Node.nil Op.reverse = Node.nil ∧
    List.foldl (applyOp less) t ops ≠ Node.nil := by
  refine ⟨?_, rfl, rfl, foldl_applyOp_ne_nil less ops t ht⟩
  intro x
  exact ⟨fun hc => Node.noConfusion hc, rfl⟩

/-- Witness for C9: a tree holding 5 stays populated under an upsert and both
traversals. -/
theorem claim_C9_witness :
    (Node.fresh 5 ≠ (Node.nil : Node Nat)) ∧
    ((∀ x : Nat, (Upsert natLt Node.nil (Node.fresh x)).1 ≠ Node.nil ∧
        (Upsert natLt Node.nil (Node.fresh x)).2.2 = true) ∧
      applyOp natLt Node.nil Op.inOrder = Node.nil ∧
      applyOp natLt Node.nil Op.reverse = Node.nil ∧
      List.foldl (applyOp natLt) (Node.fresh 5)
        [Op.upsert 3, Op.inOrder, Op.reverse] ≠ Node.nil) :=
  ⟨by decide,
   claim_C9 natLt (Node.fresh 5) [Op.upsert 3, Op.inOrder, Op.reverse] (by decide)⟩

/-- C10: both traversals are read-only: run in state-passing form, each returns its
visit sequence together with the tree exactly as it was. -/
theorem claim_C10 (t : Node α) :
    DepthFirstInOrderST t = (DepthFirstInOrder t, t) ∧
    DepthFirstReverseST t = (DepthFirstReverse t, t) :=
  ⟨DepthFirstInOrderST_eq t, DepthFirstReverseST_eq t⟩

end BTreeSpec
